import Mathlib

/-!
# Verification of the `grab` quick-open plugin

Shallow embedding of the bounded source indexer (`src/files.rs`) and the
query engine (`src/search.rs`, `src/search_state.rs`, mode detection in
`src/main.rs`) of the `grab` repository, together with theorems settling
the frozen claims about it.

Strings are modelled as lists of byte values (`List Nat`): the Rust code
scans raw bytes, and for the ASCII range (which all claims exercise) the
byte sequence and the character sequence of a Rust `String` coincide.
Unicode-only behaviours (multi-byte `to_lowercase`, `from_utf8_lossy`
replacement characters) are outside the model and are noted where the
corresponding Rust call occurs.
-/

/-- A string as its byte sequence (ASCII fragment of UTF-8). -/
abbrev Str := List Nat

/-- Bytes of a Lean string literal (faithful for ASCII content). -/
def strBytes (s : String) : Str := s.data.map Char.toNat

/-- A filesystem path as its list of components relative to the scan root. -/
abbrev FPath := List Str

/-! ## `src/files.rs`: the bounded source indexer -/

/-- `TypeKind` from files.rs: the four symbol kinds. -/
inductive TypeKind where
  | Struct
  | Enum
  | Function
  | PubFunction
deriving DecidableEq, Repr

/-- `TypeDefinition` from files.rs: an extracted symbol. -/
structure TypeDefinition where
  type_kind : TypeKind
  name : Str
  file_path : FPath
  line_number : Nat
deriving DecidableEq, Repr

/-- Byte is a space or a tab (the two whitespace bytes files.rs skips). -/
def isSpTab (b : Nat) : Bool := b = 32 || b = 9

/-- ASCII model of `char::is_alphabetic` on a byte. -/
def isAlphaByte (b : Nat) : Bool := (65 ≤ b && b ≤ 90) || (97 ≤ b && b ≤ 122)

/-- ASCII model of `char::is_alphanumeric` on a byte. -/
def isAlnumByte (b : Nat) : Bool := isAlphaByte b || (48 ≤ b && b ≤ 57)

/-- `is_valid_identifier` from files.rs: non-empty, first char alphabetic
(`.unwrap_or('0')` on the empty string, modelled by `headD 48`), every char
alphanumeric or underscore, length below 100. -/
def is_valid_identifier (name : Str) : Bool :=
  !name.isEmpty
    && isAlphaByte (name.headD 48)
    && name.all (fun b => isAlnumByte b || b = 95)
    && name.length < 100

/-- Terminator set of `extract_identifier`: `<`, `{`, `(`, `;`, space, tab,
newline, carriage return. -/
def isIdentTerminator (b : Nat) : Bool :=
  b = 60 || b = 123 || b = 40 || b = 59 || b = 32 || b = 9 || b = 10 || b = 13

/-- `extract_identifier` from files.rs: skip leading whitespace, take bytes up
to the first terminator, reject empty tokens and tokens failing
`is_valid_identifier`. (`from_utf8_lossy` is the identity on the ASCII
fragment modelled here.) -/
def extract_identifier (bytes : Str) : Option Str :=
  let s := bytes.dropWhile isSpTab
  if s.isEmpty then none
  else
    let tok := s.takeWhile (fun b => !isIdentTerminator b)
    if tok.isEmpty then none
    else if is_valid_identifier tok then some tok else none

/-- The `pub`-stripping prologue of `extract_definition_fast`: if the line
starts with `pub` followed by a space or tab, record visibility and skip the
keyword and trailing whitespace; otherwise leave the position untouched
(the code reverts `i` when `pub` is not followed by whitespace). -/
def stripPub (t : Str) : Bool × Str :=
  if (strBytes "pub").isPrefixOf t then
    match t.drop 3 with
    | b :: _ => if isSpTab b then (true, (t.drop 3).dropWhile isSpTab) else (false, t)
    | [] => (false, t)
  else (false, t)

/-- The `fn ` branch of `extract_definition_fast` (reached with the scan
position already advanced past any earlier failed keyword match). -/
def tryFnKeyword (is_pub : Bool) (t : Str) : Option (TypeKind × Str) :=
  if (strBytes "fn ").isPrefixOf t then
    (extract_identifier (t.drop 3)).map
      (fun nm => (if is_pub then TypeKind.PubFunction else TypeKind.Function, nm))
  else none

/-- The `enum ` branch of `extract_definition_fast`; on a keyword match whose
identifier is rejected the position stays advanced past the keyword (the Rust
code has mutated `i`) before the `fn ` check. -/
def tryEnumKeyword (is_pub : Bool) (t : Str) : Option (TypeKind × Str) :=
  if (strBytes "enum ").isPrefixOf t then
    match extract_identifier (t.drop 5) with
    | some nm => some (TypeKind.Enum, nm)
    | none => tryFnKeyword is_pub (t.drop 5)
  else tryFnKeyword is_pub t

/-- The `struct ` branch of `extract_definition_fast`, with the same
advanced-position fall-through as in the source. -/
def tryStructKeyword (is_pub : Bool) (t : Str) : Option (TypeKind × Str) :=
  if (strBytes "struct ").isPrefixOf t then
    match extract_identifier (t.drop 7) with
    | some nm => some (TypeKind.Struct, nm)
    | none => tryEnumKeyword is_pub (t.drop 7)
  else tryEnumKeyword is_pub t

/-- `extract_definition_fast` from files.rs: skip leading whitespace, strip a
`pub` qualifier, then test the `struct `/`enum `/`fn ` keyword literals in
order (each requiring a following space byte, `b' '`). -/
def extract_definition_fast (line : Str) : Option (TypeKind × Str) :=
  let t0 := line.dropWhile isSpTab
  let pr := stripPub t0
  tryStructKeyword pr.1 pr.2

/-- One line of `scan_with_bytes`: after the scanner's leading-whitespace
skip, empty lines and lines starting with `//` or `/*` are skipped; otherwise
`extract_definition_fast` runs and a hit is recorded with the line's 1-based
number. -/
def lineDef (line : Str) (p : FPath) (n : Nat) : Option TypeDefinition :=
  let t := line.dropWhile isSpTab
  if t.isEmpty || (strBytes "//").isPrefixOf t || (strBytes "/*").isPrefixOf t then
    none
  else
    (extract_definition_fast t).map (fun kn => ⟨kn.1, kn.2, p, n⟩)

/-- The line loop of `scan_with_bytes`: lines are processed in order with an
incrementing line number; after recording a definition the loop breaks once
more than 50 definitions have accumulated. -/
def scanLinesAux : List Str → FPath → Nat → List TypeDefinition → List TypeDefinition
  | [], _, _, acc => acc
  | l :: ls, p, n, acc =>
    match lineDef l p n with
    | none => scanLinesAux ls p (n + 1) acc
    | some d =>
      let acc2 := acc ++ [d]
      if acc2.length > 50 then acc2 else scanLinesAux ls p (n + 1) acc2

/-- `scan_with_bytes` from files.rs: split the byte stream at newlines and
run the line loop from line number 1. -/
def scan_with_bytes (bytes : Str) (p : FPath) : List TypeDefinition :=
  scanLinesAux (bytes.splitOn 10) p 1 []

/-- `scan_rust_file_fast` from files.rs: an unreadable file (`fs::read`
error, modelled as `none`) yields no symbols, a file above 1,000,000 bytes
yields no symbols, otherwise the byte scan runs. -/
def scan_rust_file_fast (p : FPath) (content : Option Str) : List TypeDefinition :=
  match content with
  | none => []
  | some bytes => if bytes.length > 1000000 then [] else scan_with_bytes bytes p

/-- `should_ignore` from files.rs: the fixed ignore-set of directory names. -/
def should_ignore (name : Str) : Bool :=
  [strBytes "node_modules", strBytes "target", strBytes ".git", strBytes ".svn",
   strBytes ".hg", strBytes "build", strBytes "dist", strBytes "out",
   strBytes ".next", strBytes ".nuxt", strBytes "__pycache__",
   strBytes ".pytest_cache", strBytes ".mypy_cache", strBytes "vendor",
   strBytes "deps", strBytes "_build", strBytes ".gradle", strBytes "bin",
   strBytes "obj", strBytes ".vs", strBytes ".vscode", strBytes ".idea",
   strBytes "coverage", strBytes ".nyc_output", strBytes "snapshots"].contains name

/-! ### Filesystem model for `get_all_files`

The directory walker is embedded over an abstract filesystem tree: a node is
a file (with `none` content when `fs::read` would fail) or a directory (with
`readable := false` when `fs::read_dir` would fail). `FSList` is a bespoke
list of nodes so that structural recursion over the tree is direct. -/

mutual
inductive FSNode where
  | file (name : Str) (content : Option Str)
  | dir (name : Str) (readable : Bool) (entries : FSList)
inductive FSList where
  | nil
  | cons (hd : FSNode) (tl : FSList)
end

mutual
/-- Number of nodes in a tree (termination measure for the walker). -/
def sizeN : FSNode → Nat
  | .file _ _ => 1
  | .dir _ _ es => 1 + sizeL es
/-- Number of nodes in a forest. -/
def sizeL : FSList → Nat
  | .nil => 0
  | .cons h t => sizeN h + sizeL t
end

/-- A discovered file: its path and its (possibly unreadable) content. -/
abbrev FileRec := FPath × Option Str

/-- The entry loop of `get_all_files` over one directory's entries: the
1000-path cap is re-checked per entry, names in the ignore-set are skipped
entirely, files are appended to the discovered list and subdirectories are
collected (in order) for the breadth-first queue. Entries collected before an
early cap break are still handed back, as in the source. -/
def processEntries : FSList → FPath → List FileRec → List (FPath × FSNode) →
    List FileRec × List (FPath × FSNode)
  | .nil, _, files, dirs => (files, dirs)
  | .cons e rest, p, files, dirs =>
    if files.length ≥ 1000 then (files, dirs)
    else
      match e with
      | .file name content =>
        if should_ignore name then processEntries rest p files dirs
        else processEntries rest p (files ++ [(p ++ [name], content)]) dirs
      | .dir name r subs =>
        if should_ignore name then processEntries rest p files dirs
        else processEntries rest p files (dirs ++ [(p ++ [name], .dir name r subs)])

/-- Total node count of a queue. -/
def qSize (q : List (FPath × FSNode)) : Nat := (q.map (fun e => sizeN e.2)).sum

theorem processEntries_dirs_size : ∀ (es : FSList) (p : FPath) (files : List FileRec)
    (dirs : List (FPath × FSNode)),
    qSize (processEntries es p files dirs).2 ≤ qSize dirs + sizeL es
  | .nil, p, files, dirs => by simp [processEntries, sizeL]
  | .cons e rest, p, files, dirs => by
    cases e with
    | file name content =>
      simp only [processEntries, sizeL, sizeN]
      split
      · exact Nat.le_add_right _ _
      · split
        · have := processEntries_dirs_size rest p files dirs
          omega
        · have := processEntries_dirs_size rest p (files ++ [(p ++ [name], content)]) dirs
          omega
    | dir name r subs =>
      simp only [processEntries, sizeL, sizeN]
      split
      · exact Nat.le_add_right _ _
      · split
        · have := processEntries_dirs_size rest p files dirs
          omega
        · have h := processEntries_dirs_size rest p files
            (dirs ++ [(p ++ [name], .dir name r subs)])
          have hq : qSize (dirs ++ [(p ++ [name], FSNode.dir name r subs)]) =
              qSize dirs + (1 + sizeL subs) := by
            simp [qSize, sizeN]
          omega

/-- The breadth-first loop of `get_all_files`: pop a directory, stop if the
path cap is reached, skip it when `read_dir` fails (`readable = false`, the
`Err(_) => continue` arm), otherwise process its entries and enqueue its
subdirectories at the back. A queued path that is a plain file behaves like a
failed `read_dir` (reading a file as a directory errors). -/
theorem qSize_tail_lt (p : FPath) (node : FSNode) (rest : List (FPath × FSNode)) :
    qSize rest < qSize ((p, node) :: rest) := by
  simp only [qSize, List.map_cons, List.sum_cons]
  have h1 : 1 ≤ sizeN node := by cases node <;> simp [sizeN]
  omega

theorem qSize_dir_step (p : FPath) (nm : Str) (rd : Bool) (es : FSList)
    (rest : List (FPath × FSNode)) (files : List FileRec) :
    qSize (rest ++ (processEntries es p files []).2) <
      qSize ((p, FSNode.dir nm rd es) :: rest) := by
  have h := processEntries_dirs_size es p files []
  simp only [qSize, List.map_append, List.sum_append, List.map_cons, List.sum_cons,
    List.map_nil, List.sum_nil, sizeN] at h ⊢
  omega

def bfsGo : List (FPath × FSNode) → List FileRec → List FileRec
  | [], files => files
  | (p, node) :: rest, files =>
    if files.length ≥ 1000 then files
    else
      match node with
      | .file _ _ => bfsGo rest files
      | .dir _ readable es =>
        if readable then
          bfsGo (rest ++ (processEntries es p files []).2) (processEntries es p files []).1
        else bfsGo rest files
termination_by q _ => qSize q
decreasing_by
  all_goals first
    | apply qSize_tail_lt
    | apply qSize_dir_step

/-- Model of `PathBuf::extension() == Some("rs")`: the final component ends in
`.rs` with a non-empty stem. -/
def hasRsExt (name : Str) : Bool :=
  decide (3 < name.length) && (strBytes ".rs").isSuffixOf name

/-- Final component of a discovered path (the file name). -/
def lastName (p : FPath) : Str := p.getLast?.getD []

/-- `get_all_files` from files.rs: breadth-first walk from the root, then the
discovered paths become the result mapping — `.rs` files get the fast scan,
all other files get an empty definition list. The `/host/` mount-prefix strip
is the identity in this root-relative path model, and the `BTreeMap` is
modelled as the association list of (path, definitions) pairs. The function
is total: every error is swallowed locally, so the `io::Result` is always
`Ok` (modelled by `Except.ok`). -/
def get_all_files (root : FSNode) : Except String (List (FPath × List TypeDefinition)) :=
  .ok ((bfsGo [([], root)] []).map
    (fun f => (f.1, if hasRsExt (lastName f.1) then scan_rust_file_fast f.1 f.2 else [])))

/-! ## `src/search.rs`: the query engine -/

/-- `PaneMetadata` from pane.rs (the pane id plays no role in ranking). -/
structure PaneMetadata where
  id : Nat
  title : Str
deriving DecidableEq, Repr

/-- `DeduplicatedCommand` from read_shell_histories.rs. -/
structure DeduplicatedCommand where
  command : Str
  folders : List Str
  latest_timestamp : Option Nat
  total_executions : Nat
deriving DecidableEq, Repr

/-- `SearchItem` from search.rs. -/
inductive SearchItem where
  | Pane (pane : PaneMetadata)
  | File (path : Str)
  | RustAsset (asset : TypeDefinition)
  | ShellCommand (shell : Str) (command : Str) (folders : List Str)
deriving DecidableEq, Repr

/-- `SearchResult` from search.rs; scores are `i64` in the source, modelled
as `Int` (saturation is made explicit where the code saturates). -/
structure SearchResult where
  item : SearchItem
  score : Int
  indices : List Nat
deriving DecidableEq, Repr

/-- The external fuzzy matcher (`SkimMatcherV2::fuzzy_indices`, from the
`fuzzy_matcher` crate — an external collaborator, so it is a parameter of the
embedding): given a candidate text and the pattern, optionally a score and
the matched character positions. -/
abbrev Matcher := Str → Str → Option (Int × List Nat)

/-- `SearchEngine::is_contiguous_match` from search.rs: index lists of length
at most one are contiguous; otherwise every index must be its predecessor
plus one. -/
def is_contiguous_match : List Nat → Bool
  | [] => true
  | [_] => true
  | a :: b :: t => (b = a + 1) && is_contiguous_match (b :: t)

/-- Largest `i64` value. -/
def i64Max : Int := 2 ^ 63 - 1

/-- Smallest `i64` value. -/
def i64Min : Int := -(2 ^ 63)

/-- `i64::saturating_mul(score, 10)` from the pane boost in search.rs. -/
def saturatingMul10 (s : Int) : Int := max i64Min (min i64Max (10 * s))

/-- The comparator of every `sort_by(|a, b| b.score.cmp(&a.score))` call in
search.rs, as the relation "`a` may come before `b`": descending score. -/
def scoreDescLe (a b : SearchResult) : Prop := b.score ≤ a.score

instance : DecidableRel scoreDescLe := fun _ b => Int.decLe b.score _

/-- A stable sort with the descending-score comparator: Rust's
`slice::sort_by` is a stable sort, as is `List.insertionSort`. -/
def sortByScoreDesc (l : List SearchResult) : List SearchResult :=
  l.insertionSort scoreDescLe

/-- `search_files_panes_rust` from search.rs: panes are fuzzy-matched by
title, with the score boosted tenfold (saturating) when the matched indices
form a contiguous run; rust assets are fuzzy-matched by name, unboosted;
files are fuzzy-matched by path, sorted by score and truncated to the top 3;
everything is concatenated and re-sorted by descending score. -/
def search_files_panes_rust (m : Matcher) (search_term : Str)
    (panes : List PaneMetadata) (files : List Str)
    (rust_assets : List TypeDefinition) : List SearchResult :=
  let paneMatches := panes.filterMap (fun pane =>
    (m pane.title search_term).map (fun si =>
      { item := .Pane pane
        score := if is_contiguous_match si.2 then saturatingMul10 si.1 else si.1
        indices := si.2 }))
  let assetMatches := rust_assets.filterMap (fun asset =>
    (m asset.name search_term).map (fun si =>
      { item := .RustAsset asset, score := si.1, indices := si.2 }))
  let fileMatches := files.filterMap (fun f =>
    (m f search_term).map (fun si =>
      { item := .File f, score := si.1, indices := si.2 }))
  sortByScoreDesc (paneMatches ++ assetMatches ++ (sortByScoreDesc fileMatches).take 3)

/-- `i64::cmp` — the standard total-order comparison. -/
def intCmp (x y : Int) : Ordering := if x < y then .lt else if x = y then .eq else .gt

/-- `u64::cmp` — the standard total-order comparison. -/
def natCmp (x y : Nat) : Ordering := if x < y then .lt else if x = y then .eq else .gt

/-- The comparator of `sort_shell_matches_by_score_and_recency` from
search.rs, transcribed arm for arm: descending score first; on a score tie
the pair `(b.timestamp, a.timestamp)` is matched — two timestamps compare
descending, and the mixed arms return `Less`/`Greater` exactly as in the
source (which places a timestampless entry before an equal-score timestamped
one). -/
def shellCmp (a b : SearchResult × Option Nat) : Ordering :=
  let score_cmp := intCmp b.1.score a.1.score
  if score_cmp ≠ .eq then score_cmp
  else
    match b.2, a.2 with
    | some timestamp_b, some timestamp_a => natCmp timestamp_b timestamp_a
    | some _, none => .lt
    | none, some _ => .gt
    | none, none => .eq

/-- "`a` may be ordered before `b`" for `shellCmp` (what `sort_by` with that
comparator guarantees of adjacent elements). -/
def shellLe (a b : SearchResult × Option Nat) : Prop := shellCmp a b ≠ .gt

instance : DecidableRel shellLe := fun _ _ => instDecidableNot

/-- `sort_shell_matches_by_score_and_recency` from search.rs: a stable sort
by `shellCmp`. -/
def sort_shell_matches_by_score_and_recency (ms : List (SearchResult × Option Nat)) :
    List (SearchResult × Option Nat) :=
  ms.insertionSort shellLe

/-- Folders recorded in a shell-command result. -/
def resultFolders (r : SearchResult) : List Str :=
  match r.item with
  | .ShellCommand _ _ folders => folders
  | _ => []

/-- Whether a shell-command result's folder set contains the current working
directory (`cmd.folders.contains(&current_cwd_str)` in search.rs). -/
def isCurrentDirResult (cwd : Str) (r : SearchResult) : Bool :=
  (resultFolders r).contains cwd

/-- The gathering loop of `search_shell_commands_prioritized`: every command
of every shell is fuzzy-matched against the term; a hit is paired with its
latest timestamp. -/
def shellMatchesAll (m : Matcher) (search_term : Str)
    (shell_histories : List (Str × List DeduplicatedCommand)) :
    List (SearchResult × Option Nat) :=
  shell_histories.flatMap (fun sh =>
    sh.2.filterMap (fun cmd =>
      (m cmd.command search_term).map (fun si =>
        ({ item := .ShellCommand sh.1 cmd.command cmd.folders
           score := si.1
           indices := si.2 }, cmd.latest_timestamp))))

/-- `search_shell_commands_prioritized` from search.rs: matches are split in
one pass into current-directory matches and the rest (modelled as the two
order-preserving filters of that partition), each tier is sorted by
`sort_shell_matches_by_score_and_recency`, tier one is emitted before tier
two, and the combined list is truncated to 50. -/
def search_shell_commands_prioritized (m : Matcher) (search_term : Str)
    (shell_histories : List (Str × List DeduplicatedCommand)) (cwd : Str) :
    List SearchResult :=
  let all := shellMatchesAll m search_term shell_histories
  let current_dir_matches := all.filter (fun rc => isCurrentDirResult cwd rc.1)
  let other_dir_matches := all.filter (fun rc => !isCurrentDirResult cwd rc.1)
  (((sort_shell_matches_by_score_and_recency current_dir_matches).map Prod.fst)
    ++ ((sort_shell_matches_by_score_and_recency other_dir_matches).map Prod.fst)).take 50

/-! ## Mode detection (`src/main.rs`) and display filtering
(`src/search_state.rs`) -/

/-- `RustAssetSearchMode` from main.rs. -/
inductive RustAssetSearchMode where
  | Struct (rest : Str)
  | Enum (rest : Str)
  | Function (rest : Str)
deriving DecidableEq, Repr

/-- ASCII model of `str::to_lowercase` on one byte. -/
def toLowerByte (b : Nat) : Nat := if 65 ≤ b ∧ b ≤ 90 then b + 32 else b

/-- `parse_rust_asset_search` from main.rs: the three keyword-plus-space
prefixes are tried case-sensitively first; the case-insensitive fallback
lowercases the query for the test but takes the remainder from the original
query by byte offset (7/5/3), preserving its casing. -/
def parse_rust_asset_search (search_term : Str) : Option RustAssetSearchMode :=
  if (strBytes "struct ").isPrefixOf search_term then
    some (.Struct (search_term.drop 7))
  else if (strBytes "enum ").isPrefixOf search_term then
    some (.Enum (search_term.drop 5))
  else if (strBytes "fn ").isPrefixOf search_term then
    some (.Function (search_term.drop 3))
  else
    let lower := search_term.map toLowerByte
    if (strBytes "struct ").isPrefixOf lower then
      some (.Struct (search_term.drop 7))
    else if (strBytes "enum ").isPrefixOf lower then
      some (.Enum (search_term.drop 5))
    else if (strBytes "fn ").isPrefixOf lower then
      some (.Function (search_term.drop 3))
    else none

/-- The remainder carried by a mode. -/
def modeRest : RustAssetSearchMode → Str
  | .Struct rest => rest
  | .Enum rest => rest
  | .Function rest => rest

/-- The symbol kind a mode filters for (the `match &mode` arms of
`get_rust_asset_display_results`). -/
def modeKind : RustAssetSearchMode → TypeKind
  | .Struct _ => .Struct
  | .Enum _ => .Enum
  | .Function _ => .Function

/-- The per-result predicate of `get_rust_asset_display_results`: keep only
rust assets whose kind matches the mode (note `TypeKind::PubFunction`
matches none of the three arms). -/
def rustAssetModeKeep (mode : RustAssetSearchMode) (r : SearchResult) : Bool :=
  match r.item with
  | .RustAsset asset => asset.type_kind = modeKind mode
  | _ => false

/-- `SearchState::get_rust_asset_display_results` from search_state.rs:
when the stored term parses as a rust-asset search, filter the stored
files/panes results down to the assets of the mode's kind; otherwise
return nothing. -/
def get_rust_asset_display_results (search_term : Str)
    (files_panes_results : List SearchResult) : List SearchResult :=
  match parse_rust_asset_search search_term with
  | some mode => files_panes_results.filter (rustAssetModeKeep mode)
  | none => []

/-- Modelled from the spec: the mode-aware search entry point
(`SearchEngine::search`, invoked by `update_search_results` in src/main.rs
and consumed through `SearchState::update_results`) is not present under
src/ — src/search.rs holds only `search_dual`, which never consults the
symbol-kind mode. Spec §4.3: in symbol-kind-filtered mode only symbols
participate, fuzzy-matched against the remainder of the query; an empty
remainder returns the full set of symbols at a flat score (the flat score of
the browse-all asset tier, 500). -/
def search_mode_rust_assets (m : Matcher) (rest : Str)
    (rust_assets : List TypeDefinition) : List SearchResult :=
  if rest.isEmpty then
    rust_assets.map (fun asset => { item := .RustAsset asset, score := 500, indices := [] })
  else
    rust_assets.filterMap (fun asset =>
      (m asset.name rest).map (fun si =>
        { item := .RustAsset asset, score := si.1, indices := si.2 }))

/-- Modelled from the spec: the files/panes result list produced by the
mode-aware `SearchEngine::search` — in symbol-kind mode the assets matched
against the remainder, otherwise `search_files_panes_rust` on the whole
term (the non-empty-query path of `search_dual`). -/
def search_files_panes_results (m : Matcher) (search_term : Str)
    (panes : List PaneMetadata) (files : List Str)
    (rust_assets : List TypeDefinition) : List SearchResult :=
  match parse_rust_asset_search search_term with
  | some mode => search_mode_rust_assets m (modeRest mode) rust_assets
  | none => search_files_panes_rust m search_term panes files rust_assets

/-! ## Scanner lemmas -/

theorem scanLinesAux_length_le (ls : List Str) (p : FPath) (n : Nat)
    (acc : List TypeDefinition) : acc.length ≤ (scanLinesAux ls p n acc).length := by
  induction ls generalizing n acc with
  | nil => simp [scanLinesAux]
  | cons l ls ih =>
    simp only [scanLinesAux]
    cases lineDef l p n with
    | none => exact ih _ _
    | some d =>
      simp only
      split
      · simp
      · exact le_trans (by simp) (ih _ _)

theorem scanLinesAux_mem_acc (ls : List Str) (p : FPath) (n : Nat)
    (acc : List TypeDefinition) (x : TypeDefinition) (hx : x ∈ acc) :
    x ∈ scanLinesAux ls p n acc := by
  induction ls generalizing n acc with
  | nil => simpa [scanLinesAux] using hx
  | cons l ls ih =>
    simp only [scanLinesAux]
    cases lineDef l p n with
    | none => exact ih _ _ hx
    | some d =>
      simp only
      split
      · simp [hx]
      · exact ih _ _ (by simp [hx])

theorem scanLinesAux_append (pre rest : List Str) (p : FPath) (n : Nat)
    (acc : List TypeDefinition)
    (hcap : (scanLinesAux pre p n acc).length ≤ 50) :
    scanLinesAux (pre ++ rest) p n acc
      = scanLinesAux rest p (n + pre.length) (scanLinesAux pre p n acc) := by
  induction pre generalizing n acc with
  | nil => simp [scanLinesAux]
  | cons l pre ih =>
    simp only [List.cons_append, scanLinesAux] at hcap ⊢
    cases hld : lineDef l p n with
    | none =>
      simp only [hld, List.append_eq] at hcap ⊢
      rw [ih _ _ hcap]
      have hn : n + 1 + pre.length = n + (l :: pre).length := by
        simp only [List.length_cons]
        omega
      rw [hn]
    | some d =>
      simp only [hld] at hcap ⊢
      by_cases hgt : (acc ++ [d]).length > 50
      · rw [if_pos hgt] at hcap
        omega
      · simp only [if_neg hgt, List.append_eq] at hcap ⊢
        rw [ih _ _ hcap]
        have hn : n + 1 + pre.length = n + (l :: pre).length := by
          simp only [List.length_cons]
          omega
        rw [hn]

theorem scanLinesAux_emit_mem (pre post : List Str) (p : FPath) (l : Str)
    (d : TypeDefinition)
    (hl : lineDef l p (1 + pre.length) = some d)
    (hcap : (scanLinesAux pre p 1 []).length ≤ 50) :
    d ∈ scanLinesAux (pre ++ l :: post) p 1 [] := by
  rw [scanLinesAux_append pre (l :: post) p 1 [] hcap]
  simp only [scanLinesAux, hl]
  split
  · simp
  · exact scanLinesAux_mem_acc _ _ _ _ _ (by simp)

theorem lineDef_fn_line (rest : Str) (p : FPath) (n : Nat) :
    lineDef (strBytes "fn " ++ rest) p n =
      (extract_identifier rest).map (fun nm => ⟨.Function, nm, p, n⟩) := by
  have hb : strBytes "fn " ++ rest = 102 :: 110 :: 32 :: rest := rfl
  have h1 : strBytes "//" = [47, 47] := rfl
  have h2 : strBytes "/*" = [47, 42] := rfl
  have h3 : strBytes "pub" = [112, 117, 98] := rfl
  have h4 : strBytes "struct " = [115, 116, 114, 117, 99, 116, 32] := rfl
  have h5 : strBytes "enum " = [101, 110, 117, 109, 32] := rfl
  have h6 : strBytes "fn " = [102, 110, 32] := rfl
  rw [lineDef, hb]
  simp only [extract_definition_fast, stripPub, tryStructKeyword, tryEnumKeyword,
    tryFnKeyword, h1, h2, h3, h4, h5, h6, List.dropWhile, isSpTab, List.isPrefixOf,
    List.isEmpty]
  norm_num
  cases hei : extract_identifier rest <;> simp [hei]

theorem extract_identifier_isSome_iff (bytes : Str) :
    (extract_identifier bytes).isSome = true ↔
      ((bytes.dropWhile isSpTab).takeWhile (fun b => !isIdentTerminator b) ≠ []
        ∧ is_valid_identifier
            ((bytes.dropWhile isSpTab).takeWhile (fun b => !isIdentTerminator b)) = true) := by
  unfold extract_identifier
  by_cases h1 : (bytes.dropWhile isSpTab).isEmpty = true
  · have he : bytes.dropWhile isSpTab = [] := by simpa [List.isEmpty_iff] using h1
    simp [he]
  · simp only [h1, if_false, Bool.false_eq_true]
    by_cases h2 :
        ((bytes.dropWhile isSpTab).takeWhile (fun b => !isIdentTerminator b)).isEmpty = true
    · have he : (bytes.dropWhile isSpTab).takeWhile (fun b => !isIdentTerminator b) = [] := by
        simpa [List.isEmpty_iff] using h2
      simp [h2, he]
    · have hne : (bytes.dropWhile isSpTab).takeWhile (fun b => !isIdentTerminator b) ≠ [] := by
        simpa [List.isEmpty_iff] using h2
      simp only [h2, if_false, Bool.false_eq_true]
      by_cases h3 :
          is_valid_identifier
            ((bytes.dropWhile isSpTab).takeWhile (fun b => !isIdentTerminator b)) = true
      · simp [h3, hne]
      · simp [h3]

/-- **C2 counterexample.** The claim asserts that `fn _helper(` yields a
symbol named `_helper` (first character underscore accepted). The code's
`is_valid_identifier` requires the first character to satisfy
`char::is_alphabetic`, which an underscore does not, so the scan of the line
`fn _helper(` emits nothing. -/
theorem fn_underscore_line_yields_no_symbol :
    scan_with_bytes (strBytes "fn _helper(") [] = [] := by decide

/-- **C2 (amended).** On a line where the `fn ` keyword matches, a symbol is
emitted if and only if the token following the keyword (up to the first
terminator byte) is non-empty, starts with an ASCII letter — an
underscore-initial token such as `_helper` is rejected — and additionally
consists only of alphanumeric/underscore characters and is shorter than 100
bytes. -/
theorem fn_line_symbol_iff_valid_identifier (rest : Str) (p : FPath) (n : Nat) :
    (lineDef (strBytes "fn " ++ rest) p n).isSome = true ↔
      (let tok := (rest.dropWhile isSpTab).takeWhile (fun b => !isIdentTerminator b)
       tok ≠ [] ∧ isAlphaByte (tok.headD 48) = true
         ∧ tok.all (fun b => isAlnumByte b || b = 95) = true ∧ tok.length < 100) := by
  rw [lineDef_fn_line]
  have hmap : ((extract_identifier rest).map
      (fun nm => (⟨.Function, nm, p, n⟩ : TypeDefinition))).isSome
      = (extract_identifier rest).isSome := by
    cases extract_identifier rest <;> rfl
  rw [hmap, extract_identifier_isSome_iff rest]
  constructor
  · rintro ⟨hne, hv⟩
    simp only [is_valid_identifier, Bool.and_eq_true, decide_eq_true_eq] at hv
    exact ⟨hne, hv.1.1.2, hv.1.2, hv.2⟩
  · rintro ⟨hne, ha, hall, hlen⟩
    refine ⟨hne, ?_⟩
    simp only [is_valid_identifier, Bool.and_eq_true, decide_eq_true_eq]
    refine ⟨⟨⟨?_, ha⟩, hall⟩, hlen⟩
    cases htok : (rest.dropWhile isSpTab).takeWhile (fun b => !isIdentTerminator b) with
    | nil => exact absurd htok hne
    | cons a t => simp [htok]

/-- **C5.** Positive symbol-extraction cases: wherever the scan (with the
per-file symbol cap not yet exhausted before that line) encounters the line
`pub struct Foo {` it emits a Struct symbol `Foo` at that 1-based line
number; `enum Bar {` emits an Enum symbol `Bar`; `fn baz(` emits a Function
symbol `baz`; `pub fn qux(` emits a PubFunction symbol `qux`. -/
theorem scan_positive_cases :
    (∀ (bytes : Str) (p : FPath) (pre post : List Str),
      bytes.splitOn 10 = pre ++ strBytes "pub struct Foo \x7b" :: post →
      (scanLinesAux pre p 1 []).length ≤ 50 →
      (⟨.Struct, strBytes "Foo", p, pre.length + 1⟩ : TypeDefinition)
        ∈ scan_with_bytes bytes p)
    ∧ (∀ (bytes : Str) (p : FPath) (pre post : List Str),
      bytes.splitOn 10 = pre ++ strBytes "enum Bar \x7b" :: post →
      (scanLinesAux pre p 1 []).length ≤ 50 →
      (⟨.Enum, strBytes "Bar", p, pre.length + 1⟩ : TypeDefinition)
        ∈ scan_with_bytes bytes p)
    ∧ (∀ (bytes : Str) (p : FPath) (pre post : List Str),
      bytes.splitOn 10 = pre ++ strBytes "fn baz(" :: post →
      (scanLinesAux pre p 1 []).length ≤ 50 →
      (⟨.Function, strBytes "baz", p, pre.length + 1⟩ : TypeDefinition)
        ∈ scan_with_bytes bytes p)
    ∧ (∀ (bytes : Str) (p : FPath) (pre post : List Str),
      bytes.splitOn 10 = pre ++ strBytes "pub fn qux(" :: post →
      (scanLinesAux pre p 1 []).length ≤ 50 →
      (⟨.PubFunction, strBytes "qux", p, pre.length + 1⟩ : TypeDefinition)
        ∈ scan_with_bytes bytes p) := by
  refine ⟨?_, ?_, ?_, ?_⟩ <;>
    (intro bytes p pre post hsplit hcap
     rw [scan_with_bytes, hsplit]
     apply scanLinesAux_emit_mem pre post p _ _ ?_ hcap
     rw [Nat.add_comm 1 pre.length]
     rfl)

/-- **C5 witness**: the four cases instantiated on one-line files. -/
theorem scan_positive_cases_witness :
    (⟨.Struct, strBytes "Foo", [], 1⟩ : TypeDefinition)
        ∈ scan_with_bytes (strBytes "pub struct Foo \x7b") []
    ∧ (⟨.Enum, strBytes "Bar", [], 1⟩ : TypeDefinition)
        ∈ scan_with_bytes (strBytes "enum Bar \x7b") []
    ∧ (⟨.Function, strBytes "baz", [], 1⟩ : TypeDefinition)
        ∈ scan_with_bytes (strBytes "fn baz(") []
    ∧ (⟨.PubFunction, strBytes "qux", [], 1⟩ : TypeDefinition)
        ∈ scan_with_bytes (strBytes "pub fn qux(") [] :=
  ⟨scan_positive_cases.1 _ [] [] [] (by decide) (by decide),
   scan_positive_cases.2.1 _ [] [] [] (by decide) (by decide),
   scan_positive_cases.2.2.1 _ [] [] [] (by decide) (by decide),
   scan_positive_cases.2.2.2 _ [] [] [] (by decide) (by decide)⟩

/-- **C6 counterexample.** The claim asserts that `struct<TAB>Foo` (a tab,
byte 9, after the keyword) yields a symbol. The keyword checks in
`extract_definition_fast` require the byte after the keyword to be a space
(`b' '`, byte 32) specifically, so the scan of that line emits nothing. -/
theorem struct_tab_line_yields_no_symbol :
    scan_with_bytes (strBytes "struct\tFoo") [] = [] := by decide

theorem tryFn_head_not_f (b : Bool) (x : Nat) (xs : Str) (hx : x ≠ 102) :
    tryFnKeyword b (x :: xs) = none := by
  unfold tryFnKeyword
  have h6 : strBytes "fn " = [102, 110, 32] := rfl
  rw [h6, if_neg]
  simp only [List.isPrefixOf, Bool.and_eq_true, beq_iff_eq]
  rintro ⟨h, -⟩
  exact hx h.symm

theorem tryEnum_head_not_e (b : Bool) (x : Nat) (xs : Str) (hx : x ≠ 101) (hx2 : x ≠ 102) :
    tryEnumKeyword b (x :: xs) = none := by
  unfold tryEnumKeyword
  have h5 : strBytes "enum " = [101, 110, 117, 109, 32] := rfl
  rw [h5, if_neg]
  · exact tryFn_head_not_f b x xs hx2
  · simp only [List.isPrefixOf, Bool.and_eq_true, beq_iff_eq]
    rintro ⟨h, -⟩
    exact hx h.symm

/-- **C6 (amended).** Negative symbol-extraction cases: a line whose first
non-blank content begins with `//` or `/*` emits no symbol; and a line where
the `struct`/`enum`/`fn` keyword text is followed by any byte other than a
space (byte 32) — a tab included, so `struct\tFoo` emits nothing, as does
`structure Foo` — emits no symbol through that keyword. -/
theorem scan_negative_cases :
    (∀ (l : Str) (p : FPath) (n : Nat),
      ((strBytes "//").isPrefixOf (l.dropWhile isSpTab) = true
        ∨ (strBytes "/*").isPrefixOf (l.dropWhile isSpTab) = true) →
      lineDef l p n = none)
    ∧ (∀ (b : Nat) (rest : Str), b ≠ 32 →
        extract_definition_fast (strBytes "struct" ++ b :: rest) = none)
    ∧ (∀ (b : Nat) (rest : Str), b ≠ 32 →
        extract_definition_fast (strBytes "enum" ++ b :: rest) = none)
    ∧ (∀ (b : Nat) (rest : Str), b ≠ 32 →
        extract_definition_fast (strBytes "fn" ++ b :: rest) = none) := by
  refine ⟨?_, ?_, ?_, ?_⟩
  · intro l p n h
    rw [lineDef]
    rw [if_pos]
    rcases h with h | h <;> simp [h]
  · intro b rest hb
    have h3 : strBytes "pub" = [112, 117, 98] := rfl
    have h4 : strBytes "struct " = [115, 116, 114, 117, 99, 116, 32] := rfl
    have he : strBytes "struct" ++ b :: rest
        = 115 :: 116 :: 114 :: 117 :: 99 :: 116 :: b :: rest := rfl
    rw [extract_definition_fast, he]
    unfold stripPub tryStructKeyword
    rw [h3, h4]
    simp only [List.dropWhile, isSpTab, List.isPrefixOf, Bool.and_eq_true, beq_iff_eq]
    norm_num
    rw [if_neg]
    · exact tryEnum_head_not_e _ _ _ (by norm_num) (by norm_num)
    · intro hcond
      omega
  · intro b rest hb
    have h3 : strBytes "pub" = [112, 117, 98] := rfl
    have h4 : strBytes "struct " = [115, 116, 114, 117, 99, 116, 32] := rfl
    have h5 : strBytes "enum " = [101, 110, 117, 109, 32] := rfl
    have he : strBytes "enum" ++ b :: rest = 101 :: 110 :: 117 :: 109 :: b :: rest := rfl
    rw [extract_definition_fast, he]
    unfold stripPub tryStructKeyword tryEnumKeyword
    rw [h3, h4, h5]
    simp only [List.dropWhile, isSpTab, List.isPrefixOf, Bool.and_eq_true, beq_iff_eq]
    norm_num
    rw [if_neg]
    · exact tryFn_head_not_f _ _ _ (by norm_num)
    · intro hcond
      omega
  · intro b rest hb
    have h3 : strBytes "pub" = [112, 117, 98] := rfl
    have h4 : strBytes "struct " = [115, 116, 114, 117, 99, 116, 32] := rfl
    have h5 : strBytes "enum " = [101, 110, 117, 109, 32] := rfl
    have h6 : strBytes "fn " = [102, 110, 32] := rfl
    have he : strBytes "fn" ++ b :: rest = 102 :: 110 :: b :: rest := rfl
    rw [extract_definition_fast, he]
    unfold stripPub tryStructKeyword tryEnumKeyword tryFnKeyword
    rw [h3, h4, h5, h6]
    simp only [List.dropWhile, isSpTab, List.isPrefixOf, Bool.and_eq_true, beq_iff_eq]
    norm_num
    intro hcond
    exact absurd hcond.symm hb

/-- **C6 witness**: the amended cases instantiated — a commented-out
definition, and tab-after-keyword lines for the three keywords. -/
theorem scan_negative_cases_witness :
    lineDef (strBytes "// struct Foo \x7b") [] 1 = none
    ∧ extract_definition_fast (strBytes "struct\tFoo") = none
    ∧ extract_definition_fast (strBytes "enum\tBar") = none
    ∧ extract_definition_fast (strBytes "fn\tbaz") = none :=
  ⟨scan_negative_cases.1 _ [] 1 (Or.inl (by decide)),
   scan_negative_cases.2.1 9 (strBytes "Foo") (by decide),
   scan_negative_cases.2.2.1 9 (strBytes "Bar") (by decide),
   scan_negative_cases.2.2.2 9 (strBytes "baz") (by decide)⟩

instance : Nonempty FSNode := ⟨.file [] none⟩

theorem processEntries_fst_ok : ∀ (es : FSList) (p : FPath) (files : List FileRec)
    (dirs : List (FPath × FSNode)),
    (∀ c ∈ p, should_ignore c = false) →
    (∀ f ∈ files, ∀ c ∈ f.1, should_ignore c = false) →
    ∀ f ∈ (processEntries es p files dirs).1, ∀ c ∈ f.1, should_ignore c = false
  | .nil, p, files, dirs, _, hf => by simpa [processEntries] using hf
  | .cons e rest, p, files, dirs, hp, hf => by
    cases e with
    | file name content =>
      simp only [processEntries]
      split
      · exact hf
      · split
        · exact processEntries_fst_ok rest p files dirs hp hf
        · rename_i hign
          refine processEntries_fst_ok rest p _ dirs hp ?_
          intro f hfm c hc
          rcases List.mem_append.mp hfm with hm | hm
          · exact hf f hm c hc
          · simp only [List.mem_singleton] at hm
            subst hm
            rcases List.mem_append.mp hc with hcp | hcn
            · exact hp c hcp
            · simp only [List.mem_singleton] at hcn
              subst hcn
              simpa using hign
    | dir name r subs =>
      simp only [processEntries]
      split
      · exact hf
      · split
        · exact processEntries_fst_ok rest p files dirs hp hf
        · exact processEntries_fst_ok rest p files _ hp hf

theorem processEntries_snd_ok : ∀ (es : FSList) (p : FPath) (files : List FileRec)
    (dirs : List (FPath × FSNode)),
    (∀ c ∈ p, should_ignore c = false) →
    (∀ d ∈ dirs, ∀ c ∈ d.1, should_ignore c = false) →
    ∀ d ∈ (processEntries es p files dirs).2, ∀ c ∈ d.1, should_ignore c = false
  | .nil, p, files, dirs, _, hd => by simpa [processEntries] using hd
  | .cons e rest, p, files, dirs, hp, hd => by
    cases e with
    | file name content =>
      simp only [processEntries]
      split
      · exact hd
      · split
        · exact processEntries_snd_ok rest p files dirs hp hd
        · exact processEntries_snd_ok rest p _ dirs hp hd
    | dir name r subs =>
      simp only [processEntries]
      split
      · exact hd
      · split
        · exact processEntries_snd_ok rest p files dirs hp hd
        · rename_i hign
          refine processEntries_snd_ok rest p files _ hp ?_
          intro d hdm c hc
          rcases List.mem_append.mp hdm with hm | hm
          · exact hd d hm c hc
          · simp only [List.mem_singleton] at hm
            subst hm
            rcases List.mem_append.mp hc with hcp | hcn
            · exact hp c hcp
            · simp only [List.mem_singleton] at hcn
              subst hcn
              simpa using hign

theorem bfsGo_cons (p : FPath) (node : FSNode) (rest : List (FPath × FSNode))
    (files : List FileRec) :
    bfsGo ((p, node) :: rest) files =
      if files.length ≥ 1000 then files
      else match node with
        | .file _ _ => bfsGo rest files
        | .dir _ readable es =>
          if readable then
            bfsGo (rest ++ (processEntries es p files []).2) (processEntries es p files []).1
          else bfsGo rest files := by
  rw [bfsGo.eq_def]

theorem bfsGo_paths_ok (q : List (FPath × FSNode)) (files : List FileRec)
    (hq : ∀ e ∈ q, ∀ c ∈ e.1, should_ignore c = false)
    (hf : ∀ f ∈ files, ∀ c ∈ f.1, should_ignore c = false) :
    ∀ f ∈ bfsGo q files, ∀ c ∈ f.1, should_ignore c = false := by
  induction q, files using bfsGo.induct with
  | case1 files => simpa [bfsGo] using hf
  | case2 p node rest files hlen =>
    rw [bfsGo_cons, if_pos hlen]
    exact hf
  | case3 p rest files hlen name content ih =>
    rw [bfsGo_cons, if_neg hlen]
    exact ih (fun e he => hq e (List.mem_cons_of_mem _ he)) hf
  | case4 p rest files hlen name es ih =>
    rw [bfsGo_cons, if_neg hlen]
    have hp : ∀ c ∈ p, should_ignore c = false :=
      hq (p, .dir name true es) (List.mem_cons_self _ _)
    refine ih ?_ ?_
    · intro e he
      rcases List.mem_append.mp he with hm | hm
      · exact hq e (List.mem_cons_of_mem _ hm)
      · exact processEntries_snd_ok es p files [] hp (by simp) e hm
    · exact processEntries_fst_ok es p files [] hp hf
  | case5 p rest files hlen name readable es hr ih =>
    rw [bfsGo_cons, if_neg hlen]
    simp only [Bool.not_eq_true] at hr
    subst hr
    exact ih (fun e he => hq e (List.mem_cons_of_mem _ he)) hf

theorem processEntries_fst_len : ∀ (es : FSList) (p : FPath) (files : List FileRec)
    (dirs : List (FPath × FSNode)), files.length ≤ 1000 →
    (processEntries es p files dirs).1.length ≤ 1000
  | .nil, _, files, dirs, h => by simpa [processEntries] using h
  | .cons e rest, p, files, dirs, h => by
    cases e with
    | file name content =>
      simp only [processEntries]
      split
      · exact h
      · rename_i hlt
        split
        · exact processEntries_fst_len rest p files dirs h
        · refine processEntries_fst_len rest p _ dirs ?_
          simp only [List.length_append, List.length_singleton]
          omega
    | dir name r subs =>
      simp only [processEntries]
      split
      · exact h
      · split
        · exact processEntries_fst_len rest p files dirs h
        · exact processEntries_fst_len rest p files _ h

theorem bfsGo_len (q : List (FPath × FSNode)) (files : List FileRec)
    (h : files.length ≤ 1000) : (bfsGo q files).length ≤ 1000 := by
  induction q, files using bfsGo.induct with
  | case1 files => simpa [bfsGo] using h
  | case2 p node rest files hlen =>
    rw [bfsGo_cons, if_pos hlen]
    exact h
  | case3 p rest files hlen name content ih =>
    rw [bfsGo_cons, if_neg hlen]
    exact ih h
  | case4 p rest files hlen name es ih =>
    rw [bfsGo_cons, if_neg hlen]
    exact ih (processEntries_fst_len es p files [] h)
  | case5 p rest files hlen name readable es hr ih =>
    rw [bfsGo_cons, if_neg hlen]
    simp only [Bool.not_eq_true] at hr
    subst hr
    exact ih h

/-- **C7.** Every path the scanner lists is made of components that are all
outside the fixed ignore-set: an entry whose name is ignored is neither
listed nor traversed, so no path at or beneath it ever appears in the
output mapping. -/
theorem ignored_directories_never_listed (root : FSNode)
    (m : List (FPath × List TypeDefinition))
    (hm : get_all_files root = .ok m) :
    ∀ pr ∈ m, ∀ c ∈ pr.1, should_ignore c = false := by
  have hok := bfsGo_paths_ok [([], root)] [] (by simp) (by simp)
  simp only [get_all_files, Except.ok.injEq] at hm
  subst hm
  intro pr hpr c hc
  simp only [List.mem_map] at hpr
  obtain ⟨f, hf, rfl⟩ := hpr
  exact hok f hf c hc

/-- A sample tree with an ignored `.git` directory holding a file. -/
def sampleTree : FSNode :=
  .dir (strBytes "r") true
    (.cons (.dir (strBytes ".git") true
        (.cons (.file (strBytes "secret.rs") (some [])) .nil))
      (.cons (.file (strBytes "a.rs") (some [])) .nil))

theorem get_all_files_sampleTree :
    get_all_files sampleTree = .ok [([strBytes "a.rs"], [])] := by
  simp +decide [get_all_files, sampleTree, bfsGo, processEntries, should_ignore,
    hasRsExt, lastName, scan_rust_file_fast, scan_with_bytes, scanLinesAux, lineDef,
    List.splitOn]

/-- **C7 witness**: the invariant applied to `sampleTree`, whose `.git`
subtree is absent from the output — the one listed path component is not
ignored. -/
theorem ignored_directories_never_listed_witness :
    should_ignore (strBytes "a.rs") = false :=
  ignored_directories_never_listed sampleTree [([strBytes "a.rs"], [])]
    get_all_files_sampleTree ([strBytes "a.rs"], []) (by decide)
    (strBytes "a.rs") (by decide)

/-- **C8.** The scanner's output mapping never holds more than 1000 paths:
the cap is enforced before each directory is expanded and again before each
entry is appended. -/
theorem scanner_path_cap (root : FSNode) (m : List (FPath × List TypeDefinition))
    (hm : get_all_files root = .ok m) : m.length ≤ 1000 := by
  simp only [get_all_files, Except.ok.injEq] at hm
  subst hm
  simpa using bfsGo_len [([], root)] [] (by simp)

/-- **C8 witness**: the cap theorem applied to `sampleTree`. -/
theorem scanner_path_cap_witness :
    ([([strBytes "a.rs"], ([] : List TypeDefinition))] : List _).length ≤ 1000 :=
  scanner_path_cap sampleTree _ get_all_files_sampleTree

/-- **C9.** The indexer is total and fault-tolerant: it always returns an
`Ok` mapping; a directory whose `read_dir` fails contributes nothing and
traversal continues with the remaining queued directories; an unreadable
source file contributes an empty symbol list; an oversized (> 1,000,000
bytes) source file contributes an empty symbol list. -/
theorem indexer_total_and_fault_tolerant :
    (∀ root : FSNode, ∃ m, get_all_files root = .ok m)
    ∧ (∀ (p : FPath) (name : Str) (es : FSList) (q : List (FPath × FSNode))
         (files : List FileRec),
        bfsGo ((p, .dir name false es) :: q) files = bfsGo q files)
    ∧ (∀ p : FPath, scan_rust_file_fast p none = [])
    ∧ (∀ (p : FPath) (bytes : Str), bytes.length > 1000000 →
        scan_rust_file_fast p (some bytes) = []) := by
  refine ⟨fun root => ⟨_, rfl⟩, ?_, fun p => rfl, ?_⟩
  · intro p name es q files
    rw [bfsGo_cons]
    by_cases h : files.length ≥ 1000
    · rw [if_pos h]
      cases q with
      | nil => simp [bfsGo]
      | cons e r =>
        obtain ⟨p2, node2⟩ := e
        rw [bfsGo_cons, if_pos h]
    · rw [if_neg h]
      rfl
  · intro p bytes h
    simp [scan_rust_file_fast, h]


/-- **C9 witness**: an unreadable directory queued ahead of an empty queue
contributes nothing, and a 1,000,001-byte file scans to no symbols. -/
theorem indexer_total_and_fault_tolerant_witness :
    bfsGo [([], FSNode.dir (strBytes "d") false .nil)] [] = bfsGo [] []
    ∧ scan_rust_file_fast [] (some (List.replicate 1000001 0)) = [] :=
  ⟨indexer_total_and_fault_tolerant.2.1 [] (strBytes "d") .nil [] [],
   indexer_total_and_fault_tolerant.2.2.2 [] (List.replicate 1000001 0)
     (by rw [List.length_replicate]; norm_num)⟩

instance : IsTotal SearchResult scoreDescLe := ⟨fun a b => le_total b.score a.score⟩

instance : IsTrans SearchResult scoreDescLe := ⟨fun _ _ _ hab hbc => le_trans hbc hab⟩

theorem saturatingMul10_gt (s : Int) (hs : 0 < s) (hmax : s < i64Max) :
    s < saturatingMul10 s := by
  have h10 : s < 10 * s := by omega
  have hmin : s < min i64Max (10 * s) := lt_min hmax h10
  exact lt_of_lt_of_le hmin (le_max_right _ _)

/-- **C4.** Contiguous-match boosting: if two panes both fuzzy-match the
query with the same raw score `s` (a genuine positive match score below the
`i64` saturation point), and one match's indices form a contiguous run while
the other's do not, then both appear in `search_files_panes_rust`'s output
and every occurrence of the boosted contiguous result is ranked strictly
before every occurrence of the scattered result. -/
theorem contiguous_match_outranks_scattered
    (m : Matcher) (term : Str) (panes : List PaneMetadata) (files : List Str)
    (assets : List TypeDefinition) (p1 p2 : PaneMetadata) (s : Int)
    (idx1 idx2 : List Nat)
    (h1 : p1 ∈ panes) (h2 : p2 ∈ panes)
    (hm1 : m p1.title term = some (s, idx1)) (hm2 : m p2.title term = some (s, idx2))
    (hc1 : is_contiguous_match idx1 = true) (hc2 : is_contiguous_match idx2 = false)
    (hs : 0 < s) (hsmax : s < i64Max) :
    (⟨.Pane p1, saturatingMul10 s, idx1⟩ : SearchResult)
        ∈ search_files_panes_rust m term panes files assets
    ∧ (⟨.Pane p2, s, idx2⟩ : SearchResult)
        ∈ search_files_panes_rust m term panes files assets
    ∧ ∀ (i j : Nat) (hi : i < (search_files_panes_rust m term panes files assets).length)
        (hj : j < (search_files_panes_rust m term panes files assets).length),
        (search_files_panes_rust m term panes files assets)[i]
          = (⟨.Pane p1, saturatingMul10 s, idx1⟩ : SearchResult) →
        (search_files_panes_rust m term panes files assets)[j]
          = (⟨.Pane p2, s, idx2⟩ : SearchResult) →
        i < j := by
  have hboost := saturatingMul10_gt s hs hsmax
  have hmem1 : (⟨.Pane p1, saturatingMul10 s, idx1⟩ : SearchResult)
      ∈ search_files_panes_rust m term panes files assets := by
    unfold search_files_panes_rust sortByScoreDesc
    rw [List.mem_insertionSort]
    refine List.mem_append.mpr (Or.inl (List.mem_append.mpr (Or.inl ?_)))
    refine List.mem_filterMap.mpr ⟨p1, h1, ?_⟩
    rw [hm1]
    simp [hc1]
  have hmem2 : (⟨.Pane p2, s, idx2⟩ : SearchResult)
      ∈ search_files_panes_rust m term panes files assets := by
    unfold search_files_panes_rust sortByScoreDesc
    rw [List.mem_insertionSort]
    refine List.mem_append.mpr (Or.inl (List.mem_append.mpr (Or.inl ?_)))
    refine List.mem_filterMap.mpr ⟨p2, h2, ?_⟩
    rw [hm2]
    simp [hc2]
  refine ⟨hmem1, hmem2, ?_⟩
  intro i j hi hj hie hje
  have hsorted : (search_files_panes_rust m term panes files assets).Pairwise scoreDescLe := by
    unfold search_files_panes_rust sortByScoreDesc
    exact List.sorted_insertionSort scoreDescLe _
  rcases lt_trichotomy i j with h | h | h
  · exact h
  · exfalso
    subst h
    have heq := hie.symm.trans hje
    have : saturatingMul10 s = s := congrArg SearchResult.score heq
    omega
  · exfalso
    have hle := List.pairwise_iff_getElem.mp hsorted j i hj hi h
    rw [hie, hje] at hle
    unfold scoreDescLe at hle
    simp at hle
    omega

/-- A two-pane matcher used to instantiate the boost theorem: `ab` matches
contiguously, `xaxb` matches the same score with scattered indices. -/
def pairMatcher : Matcher := fun t _ =>
  if t = strBytes "ab" then some (5, [0, 1])
  else if t = strBytes "xaxb" then some (5, [1, 3])
  else none

/-- **C4 witness**: the boost theorem instantiated on two concrete panes. -/
theorem contiguous_match_outranks_scattered_witness :
    (⟨.Pane ⟨1, strBytes "ab"⟩, saturatingMul10 5, [0, 1]⟩ : SearchResult)
        ∈ search_files_panes_rust pairMatcher (strBytes "ab")
            [⟨1, strBytes "ab"⟩, ⟨2, strBytes "xaxb"⟩] [] []
    ∧ (⟨.Pane ⟨2, strBytes "xaxb"⟩, 5, [1, 3]⟩ : SearchResult)
        ∈ search_files_panes_rust pairMatcher (strBytes "ab")
            [⟨1, strBytes "ab"⟩, ⟨2, strBytes "xaxb"⟩] [] []
    ∧ ∀ (i j : Nat)
        (hi : i < (search_files_panes_rust pairMatcher (strBytes "ab")
            [⟨1, strBytes "ab"⟩, ⟨2, strBytes "xaxb"⟩] [] []).length)
        (hj : j < (search_files_panes_rust pairMatcher (strBytes "ab")
            [⟨1, strBytes "ab"⟩, ⟨2, strBytes "xaxb"⟩] [] []).length),
        (search_files_panes_rust pairMatcher (strBytes "ab")
            [⟨1, strBytes "ab"⟩, ⟨2, strBytes "xaxb"⟩] [] [])[i]
          = (⟨.Pane ⟨1, strBytes "ab"⟩, saturatingMul10 5, [0, 1]⟩ : SearchResult) →
        (search_files_panes_rust pairMatcher (strBytes "ab")
            [⟨1, strBytes "ab"⟩, ⟨2, strBytes "xaxb"⟩] [] [])[j]
          = (⟨.Pane ⟨2, strBytes "xaxb"⟩, 5, [1, 3]⟩ : SearchResult) →
        i < j :=
  contiguous_match_outranks_scattered pairMatcher (strBytes "ab")
    [⟨1, strBytes "ab"⟩, ⟨2, strBytes "xaxb"⟩] [] [] ⟨1, strBytes "ab"⟩
    ⟨2, strBytes "xaxb"⟩ 5 [0, 1] [1, 3] (by decide) (by decide) (by decide)
    (by decide) (by decide) (by decide) (by decide) (by decide)

/-- The tie-break policy `shellLe` tolerates between `a` (earlier) and `b`
(later) at the timestamp level, read off from the comparator's arms: a
timestampless entry may precede anything, two timestamped entries are in
descending timestamp order, and a timestamped entry never precedes an
equal-score timestampless one. -/
def tsOk : Option Nat → Option Nat → Prop
  | none, _ => True
  | some ta, some tb => tb ≤ ta
  | some _, none => False

theorem shellLe_iff (a b : SearchResult × Option Nat) :
    shellLe a b ↔ b.1.score < a.1.score ∨ (a.1.score = b.1.score ∧ tsOk a.2 b.2) := by
  obtain ⟨ra, ta⟩ := a
  obtain ⟨rb, tb⟩ := b
  simp only [shellLe, shellCmp, intCmp, natCmp]
  rcases lt_trichotomy rb.score ra.score with h | h | h
  · rw [if_pos h]
    simp [h]
  · have hne : ¬ rb.score < ra.score := by omega
    rw [if_neg hne, if_pos h]
    have hra : ra.score = rb.score := h.symm
    rcases ta with _ | va <;> rcases tb with _ | vb
    · simp [tsOk, hra, hne]
    · simp [tsOk, hra, hne]
    · simp [tsOk, hra, hne]
    · simp only [tsOk, ne_eq, not_true_eq_false, if_false]
      split_ifs with hv1 hv2 <;> simp [hra, hne] <;> omega
  · have hne1 : ¬ rb.score < ra.score := by omega
    have hne2 : ¬ rb.score = ra.score := by omega
    rw [if_neg hne1, if_neg hne2]
    simp [tsOk]
    omega

instance : IsTotal (SearchResult × Option Nat) shellLe := ⟨fun a b => by
  rw [shellLe_iff, shellLe_iff]
  obtain ⟨ra, ta⟩ := a
  obtain ⟨rb, tb⟩ := b
  simp only
  rcases ta with _ | va <;> rcases tb with _ | vb <;> simp [tsOk] <;> omega⟩

instance : IsTrans (SearchResult × Option Nat) shellLe := ⟨fun a b c hab hbc => by
  rw [shellLe_iff] at hab hbc ⊢
  obtain ⟨ra, ta⟩ := a
  obtain ⟨rb, tb⟩ := b
  obtain ⟨rc, tc⟩ := c
  simp only at *
  rcases ta with _ | va <;> rcases tb with _ | vb <;> rcases tc with _ | vc <;>
      simp [tsOk] at * <;> omega⟩

/-- `shellLe` forces descending scores. -/
theorem shellLe_score (x y : SearchResult × Option Nat) (h : shellLe x y) :
    y.1.score ≤ x.1.score := by
  rw [shellLe_iff] at h
  rcases h with h | ⟨h, -⟩ <;> omega

/-- The mapped score list of a sorted tier is descending. -/
theorem sortShell_scores_desc (l : List (SearchResult × Option Nat)) :
    ((sort_shell_matches_by_score_and_recency l).map Prod.fst).Pairwise
      (fun r1 r2 => r2.score ≤ r1.score) := by
  rw [List.pairwise_map]
  exact (List.sorted_insertionSort shellLe l).imp (fun h => shellLe_score _ _ h)


/-- Members of a sorted filtered tier satisfy the tier predicate. -/
theorem sortShell_filter_mem (l : List (SearchResult × Option Nat))
    (pb : (SearchResult × Option Nat) → Bool) (r : SearchResult)
    (hr : r ∈ (sort_shell_matches_by_score_and_recency (l.filter pb)).map Prod.fst) :
    ∃ t, pb (r, t) = true := by
  simp only [List.mem_map] at hr
  obtain ⟨x, hx, rfl⟩ := hr
  rw [sort_shell_matches_by_score_and_recency, List.mem_insertionSort] at hx
  exact ⟨x.2, by simpa using List.of_mem_filter hx⟩

/-- **C3 (amended).** History search output: (1) at most 50 results; (2)
every current-directory (tier-one) result precedes every other-directory
(tier-two) result; (3) within a tier, scores are descending; (4) each tier
is sorted by the full comparator `shellLe`, whose policy on ties is spelled
out by (5)–(7): at equal score, two timestamped commands are ordered by
descending timestamp, and a timestampLESS command is ordered before an
equal-score timestamped one (never after it). -/
theorem history_two_tier_ranking
    (m : Matcher) (term : Str) (hists : List (Str × List DeduplicatedCommand))
    (cwd : Str) :
    (search_shell_commands_prioritized m term hists cwd).length ≤ 50
    ∧ (∀ (i j : Nat) (hi : i < (search_shell_commands_prioritized m term hists cwd).length)
        (hj : j < (search_shell_commands_prioritized m term hists cwd).length), i < j →
        isCurrentDirResult cwd ((search_shell_commands_prioritized m term hists cwd)[i]) = false →
        isCurrentDirResult cwd ((search_shell_commands_prioritized m term hists cwd)[j]) = false)
    ∧ (∀ (i j : Nat) (hi : i < (search_shell_commands_prioritized m term hists cwd).length)
        (hj : j < (search_shell_commands_prioritized m term hists cwd).length), i < j →
        isCurrentDirResult cwd ((search_shell_commands_prioritized m term hists cwd)[i])
          = isCurrentDirResult cwd ((search_shell_commands_prioritized m term hists cwd)[j]) →
        ((search_shell_commands_prioritized m term hists cwd)[j]).score
          ≤ ((search_shell_commands_prioritized m term hists cwd)[i]).score)
    ∧ (∀ l : List (SearchResult × Option Nat),
        (sort_shell_matches_by_score_and_recency l).Pairwise shellLe)
    ∧ (∀ (r1 r2 : SearchResult) (t1 t2 : Nat),
        shellLe (r1, some t1) (r2, some t2) ↔
          r2.score < r1.score ∨ (r1.score = r2.score ∧ t2 ≤ t1))
    ∧ (∀ (r1 r2 : SearchResult) (t1 : Nat),
        shellLe (r1, some t1) (r2, (none : Option Nat)) ↔ r2.score < r1.score)
    ∧ (∀ (r1 r2 : SearchResult) (t2 : Nat),
        shellLe (r1, (none : Option Nat)) (r2, some t2) ↔
          (r2.score < r1.score ∨ r1.score = r2.score)) := by
  set all := shellMatchesAll m term hists with hall
  set A := (sort_shell_matches_by_score_and_recency
      (all.filter (fun rc => isCurrentDirResult cwd rc.1))).map Prod.fst with hA_def
  set B := (sort_shell_matches_by_score_and_recency
      (all.filter (fun rc => !isCurrentDirResult cwd rc.1))).map Prod.fst with hB_def
  have hout : search_shell_commands_prioritized m term hists cwd = (A ++ B).take 50 := rfl
  have hA : ∀ r ∈ A, isCurrentDirResult cwd r = true := by
    intro r hr
    obtain ⟨t, ht⟩ := sortShell_filter_mem all (fun rc => isCurrentDirResult cwd rc.1) r hr
    exact ht
  have hB : ∀ r ∈ B, isCurrentDirResult cwd r = false := by
    intro r hr
    obtain ⟨t, ht⟩ := sortShell_filter_mem all (fun rc => !isCurrentDirResult cwd rc.1) r hr
    simpa using ht
  have hgetAB : ∀ (i : Nat) (hi : i < (search_shell_commands_prioritized m term hists cwd).length),
      ∃ hi2 : i < (A ++ B).length,
      (search_shell_commands_prioritized m term hists cwd)[i] = getElem (A ++ B) i hi2 := by
    intro i hi
    have hi2 : i < (A ++ B).length := by
      rw [hout] at hi
      simp only [List.length_take, lt_min_iff] at hi
      exact hi.2
    exact ⟨hi2, (List.getElem_of_eq hout hi).trans (List.getElem_take (A ++ B))⟩
  refine ⟨?_, ?_, ?_, ?_, ?_, ?_, ?_⟩
  · rw [hout]
    simp [List.length_take]
  · intro i j hi hj hij hfalse
    obtain ⟨hi2, hieq⟩ := hgetAB i hi
    obtain ⟨hj2, hjeq⟩ := hgetAB j hj
    rw [hieq] at hfalse
    rw [hjeq]
    by_cases hiA : i < A.length
    · rw [List.getElem_append_left hiA] at hfalse
      have := hA _ (List.getElem_mem hiA)
      rw [this] at hfalse
      exact absurd hfalse (by simp)
    · have hjA : ¬ j < A.length := by omega
      have hjB : j - A.length < B.length := by
        rw [List.length_append] at hj2
        omega
      rw [List.getElem_append_right (by omega)]
      exact hB _ (List.getElem_mem hjB)
  · intro i j hi hj hij htier
    obtain ⟨hi2, hieq⟩ := hgetAB i hi
    obtain ⟨hj2, hjeq⟩ := hgetAB j hj
    rw [hieq, hjeq] at htier ⊢
    by_cases hiA : i < A.length
    · by_cases hjA : j < A.length
      · rw [List.getElem_append_left hiA, List.getElem_append_left hjA] at htier ⊢
        have hpair := sortShell_scores_desc
          (all.filter (fun rc => isCurrentDirResult cwd rc.1))
        rw [← hA_def] at hpair
        exact List.pairwise_iff_getElem.mp hpair i j hiA hjA hij
      · exfalso
        have hjB : j - A.length < B.length := by
          rw [List.length_append] at hj2
          omega
        rw [List.getElem_append_left hiA, List.getElem_append_right (by omega)] at htier
        have h1 := hA _ (List.getElem_mem hiA)
        have h2 := hB _ (List.getElem_mem hjB)
        rw [h1, h2] at htier
        exact absurd htier (by simp)
    · have hjA : ¬ j < A.length := by omega
      rw [List.getElem_append_right (by omega), List.getElem_append_right (by omega)] at htier ⊢
      have hpair := sortShell_scores_desc
        (all.filter (fun rc => !isCurrentDirResult cwd rc.1))
      rw [← hB_def] at hpair
      exact List.pairwise_iff_getElem.mp hpair (i - A.length) (j - A.length)
        (by rw [List.length_append] at hi2; omega)
        (by rw [List.length_append] at hj2; omega) (by omega)
  · intro l
    exact List.sorted_insertionSort shellLe l
  · intro r1 r2 t1 t2
    rw [shellLe_iff]
    simp [tsOk]
  · intro r1 r2 t1
    rw [shellLe_iff]
    simp [tsOk]
  · intro r1 r2 t2
    rw [shellLe_iff]
    simp [tsOk]

/-- A matcher that scores every command 5 with no indices, isolating the
ordering policy from fuzzy scoring. -/
def constMatcher : Matcher := fun _ _ => some (5, [])

/-- A current-directory command with a timestamp. -/
def tsCmdA : DeduplicatedCommand := ⟨strBytes "cargo build", [strBytes "/d"], some 100, 1⟩

/-- A current-directory command without a timestamp. -/
def tsCmdB : DeduplicatedCommand := ⟨strBytes "cargo test", [strBytes "/d"], none, 1⟩

/-- **C3 counterexample.** The claim asserts that at equal score a
timestamped command ranks before a timestampless one. With both commands in
the current directory, equal score 5, `cargo build` carrying timestamp 100
and `cargo test` carrying none, the code's comparator
(`sort_shell_matches_by_score_and_recency`, whose `(Some,None)`/`(None,Some)`
arms return `Less`/`Greater` for the pair `(b,a)`) puts the timestampLESS
`cargo test` first. -/
theorem timestampless_ranks_first :
    search_shell_commands_prioritized constMatcher (strBytes "c")
        [(strBytes "bash", [tsCmdA, tsCmdB])] (strBytes "/d")
      = [⟨.ShellCommand (strBytes "bash") (strBytes "cargo test") [strBytes "/d"], 5, []⟩,
         ⟨.ShellCommand (strBytes "bash") (strBytes "cargo build") [strBytes "/d"], 5, []⟩] := by
  decide

/-- **C3 witness**: the ranking theorem instantiated on the concrete pool —
the cap bound, the within-tier descending-score property at indices 0 and 1,
and the tie policies at concrete scores and timestamps. -/
theorem history_two_tier_ranking_witness :
    (search_shell_commands_prioritized constMatcher (strBytes "c")
        [(strBytes "bash", [tsCmdA, tsCmdB])] (strBytes "/d")).length ≤ 50
    ∧ ((search_shell_commands_prioritized constMatcher (strBytes "c")
        [(strBytes "bash", [tsCmdA, tsCmdB])] (strBytes "/d")).get ⟨1, by decide⟩).score
      ≤ ((search_shell_commands_prioritized constMatcher (strBytes "c")
        [(strBytes "bash", [tsCmdA, tsCmdB])] (strBytes "/d")).get ⟨0, by decide⟩).score
    ∧ (shellLe (⟨.File (strBytes "x"), 7, []⟩, some 3) (⟨.File (strBytes "y"), 7, []⟩, some 2) ↔
        (7 : Int) < 7 ∨ ((7 : Int) = 7 ∧ 2 ≤ 3)) :=
  ⟨(history_two_tier_ranking constMatcher (strBytes "c")
      [(strBytes "bash", [tsCmdA, tsCmdB])] (strBytes "/d")).1,
   (history_two_tier_ranking constMatcher (strBytes "c")
      [(strBytes "bash", [tsCmdA, tsCmdB])] (strBytes "/d")).2.2.1 0 1 (by decide) (by decide)
      (by decide) (by decide),
   (history_two_tier_ranking constMatcher (strBytes "c")
      [(strBytes "bash", [tsCmdA, tsCmdB])] (strBytes "/d")).2.2.2.2.1
      ⟨.File (strBytes "x"), 7, []⟩ ⟨.File (strBytes "y"), 7, []⟩ 3 2⟩

/-- **C10.** In function-kind mode (`fn ` prefix) the display filter keeps
only assets whose kind is exactly `Function`; a `pub fn` definition is
recorded with the distinct `PubFunction` kind and therefore never appears in
function-mode results even though it is a function definition. -/
theorem fn_mode_shows_only_plain_functions :
    (∀ (term rest : Str) (results : List SearchResult) (r : SearchResult),
      parse_rust_asset_search term = some (.Function rest) →
      r ∈ get_rust_asset_display_results term results →
      ∃ td, r.item = .RustAsset td ∧ td.type_kind = .Function)
    ∧ (∀ (term rest : Str) (results : List SearchResult) (r : SearchResult)
        (td : TypeDefinition),
      parse_rust_asset_search term = some (.Function rest) →
      r.item = .RustAsset td → td.type_kind = .PubFunction →
      r ∉ get_rust_asset_display_results term results)
    ∧ extract_definition_fast (strBytes "pub fn qux(")
        = some (.PubFunction, strBytes "qux") := by
  refine ⟨?_, ?_, by decide⟩
  · intro term rest results r hp hr
    rw [get_rust_asset_display_results, hp] at hr
    have hkeep := List.of_mem_filter hr
    cases hri : r.item with
    | RustAsset td =>
      refine ⟨td, rfl, ?_⟩
      rw [rustAssetModeKeep, hri] at hkeep
      simpa [modeKind] using hkeep
    | Pane p => rw [rustAssetModeKeep, hri] at hkeep; exact absurd hkeep (by simp)
    | File f => rw [rustAssetModeKeep, hri] at hkeep; exact absurd hkeep (by simp)
    | ShellCommand a b c => rw [rustAssetModeKeep, hri] at hkeep; exact absurd hkeep (by simp)
  · intro term rest results r td hp hri hkind hr
    rw [get_rust_asset_display_results, hp] at hr
    have hkeep := List.of_mem_filter hr
    rw [rustAssetModeKeep, hri] at hkeep
    simp only [modeKind, decide_eq_true_eq] at hkeep
    rw [hkind] at hkeep
    exact absurd hkeep (by decide)

/-- A plain-function asset. -/
def fnAsset : TypeDefinition := ⟨.Function, strBytes "run", [strBytes "m.rs"], 3⟩

/-- A public-function asset. -/
def pubFnAsset : TypeDefinition := ⟨.PubFunction, strBytes "qux", [strBytes "m.rs"], 9⟩

/-- **C10 witness**: with term `fn r` and one asset of each function kind in
the stored results, only the plain `Function` asset is displayed. -/
theorem fn_mode_shows_only_plain_functions_witness :
    (∃ td, (⟨.RustAsset fnAsset, 10, []⟩ : SearchResult).item = .RustAsset td
        ∧ td.type_kind = .Function)
    ∧ (⟨.RustAsset pubFnAsset, 10, []⟩ : SearchResult) ∉
        get_rust_asset_display_results (strBytes "fn r")
          [⟨.RustAsset fnAsset, 10, []⟩, ⟨.RustAsset pubFnAsset, 10, []⟩] :=
  ⟨fn_mode_shows_only_plain_functions.1 (strBytes "fn r") (strBytes "r")
      [⟨.RustAsset fnAsset, 10, []⟩, ⟨.RustAsset pubFnAsset, 10, []⟩]
      ⟨.RustAsset fnAsset, 10, []⟩ (by decide) (by decide),
   fn_mode_shows_only_plain_functions.2.1 (strBytes "fn r") (strBytes "r")
      [⟨.RustAsset fnAsset, 10, []⟩, ⟨.RustAsset pubFnAsset, 10, []⟩]
      ⟨.RustAsset pubFnAsset, 10, []⟩ pubFnAsset (by decide) rfl rfl⟩

/-- **C1.** In symbol-kind mode (query with a recognized keyword-plus-space
prefix) the displayed result set contains only rust assets of the mode's
kind, each present in the asset pool and — when the remainder after the
prefix is non-empty — fuzzy-matched against that remainder with its score
and indices; when the remainder is empty the display is exactly the full
set of assets of that kind at the flat score 500. (The mode-aware search
entry point is spec-modelled; see `search_mode_rust_assets`.) -/
theorem symbol_kind_mode_filters_and_matches
    (m : Matcher) (term : Str) (mode : RustAssetSearchMode)
    (panes : List PaneMetadata) (files : List Str) (assets : List TypeDefinition)
    (hp : parse_rust_asset_search term = some mode) :
    (∀ r ∈ get_rust_asset_display_results term
        (search_files_panes_results m term panes files assets),
      ∃ td, td ∈ assets ∧ r.item = .RustAsset td ∧ td.type_kind = modeKind mode
        ∧ (modeRest mode ≠ [] → ∃ s idx, m td.name (modeRest mode) = some (s, idx)
            ∧ r.score = s ∧ r.indices = idx))
    ∧ (modeRest mode = [] →
        get_rust_asset_display_results term
            (search_files_panes_results m term panes files assets)
          = (assets.filter (fun td => td.type_kind = modeKind mode)).map
              (fun td => { item := .RustAsset td, score := 500, indices := [] })) := by
  have hsr : search_files_panes_results m term panes files assets
      = search_mode_rust_assets m (modeRest mode) assets := by
    rw [search_files_panes_results, hp]
  have hdisp : get_rust_asset_display_results term
        (search_files_panes_results m term panes files assets)
      = (search_mode_rust_assets m (modeRest mode) assets).filter
          (rustAssetModeKeep mode) := by
    rw [get_rust_asset_display_results, hp, hsr]
  constructor
  · intro r hr
    rw [hdisp] at hr
    have hkeep := List.of_mem_filter hr
    have hmem := List.mem_of_mem_filter hr
    rw [search_mode_rust_assets] at hmem
    by_cases hrest : (modeRest mode).isEmpty
    · rw [if_pos hrest] at hmem
      rw [List.mem_map] at hmem
      obtain ⟨td, htd, rfl⟩ := hmem
      refine ⟨td, htd, rfl, ?_, ?_⟩
      · rw [rustAssetModeKeep] at hkeep
        simpa using hkeep
      · intro hne
        exact absurd (List.isEmpty_iff.mp hrest) hne
    · rw [if_neg hrest] at hmem
      rw [List.mem_filterMap] at hmem
      obtain ⟨td, htd, heq⟩ := hmem
      cases hmm : m td.name (modeRest mode) with
      | none => rw [hmm] at heq; exact absurd heq (by simp)
      | some si =>
        rw [hmm, Option.map_some'] at heq
        obtain rfl := Option.some.inj heq
        refine ⟨td, htd, rfl, ?_, ?_⟩
        · rw [rustAssetModeKeep] at hkeep
          simpa using hkeep
        · intro _
          exact ⟨si.1, si.2, by rw [hmm], rfl, rfl⟩
  · intro hrest
    rw [hdisp, search_mode_rust_assets, if_pos (by simp [hrest])]
    rw [List.filter_map]
    have hcong : ∀ td ∈ assets,
        (rustAssetModeKeep mode ∘ fun td =>
          ({ item := .RustAsset td, score := 500, indices := [] } : SearchResult)) td
        = decide (td.type_kind = modeKind mode) := fun td _ => rfl
    rw [List.filter_congr hcong]

/-- A struct asset for the mode-filter witness. -/
def structAsset : TypeDefinition := ⟨.Struct, strBytes "Foo", [strBytes "m.rs"], 1⟩

/-- An enum asset for the mode-filter witness. -/
def enumAsset : TypeDefinition := ⟨.Enum, strBytes "Bar", [strBytes "m.rs"], 2⟩

/-- **C1 witness**: query `struct ` (empty remainder) over a struct and an
enum asset displays exactly the struct assets at the flat score. -/
theorem symbol_kind_mode_filters_and_matches_witness :
    get_rust_asset_display_results (strBytes "struct ")
        (search_files_panes_results constMatcher (strBytes "struct ") [] []
          [structAsset, enumAsset])
      = ([structAsset, enumAsset].filter
          (fun td => td.type_kind = modeKind (.Struct []))).map
          (fun td => { item := .RustAsset td, score := 500, indices := [] }) :=
  (symbol_kind_mode_filters_and_matches constMatcher (strBytes "struct ") (.Struct [])
    [] [] [structAsset, enumAsset] (by decide)).2 rfl

theorem extract_identifier_enum_kw (t : Str) :
    extract_identifier (strBytes "enum " ++ t) = some (strBytes "enum") := rfl

theorem extract_identifier_fn_kw (t : Str) :
    extract_identifier (strBytes "fn " ++ t) = some (strBytes "fn") := rfl

theorem tryFn_of_extract_none (b : Bool) (rest : Str)
    (h : extract_identifier rest = none) : tryFnKeyword b rest = none := by
  unfold tryFnKeyword
  by_cases hp : (strBytes "fn ").isPrefixOf rest = true
  · obtain ⟨t, ht⟩ := List.isPrefixOf_iff_prefix.mp hp
    rw [← ht, extract_identifier_fn_kw] at h
    exact absurd h (by simp)
  · rw [if_neg hp]

theorem tryEnum_of_extract_none (b : Bool) (rest : Str)
    (h : extract_identifier rest = none) : tryEnumKeyword b rest = none := by
  unfold tryEnumKeyword
  by_cases hp : (strBytes "enum ").isPrefixOf rest = true
  · obtain ⟨t, ht⟩ := List.isPrefixOf_iff_prefix.mp hp
    rw [← ht, extract_identifier_enum_kw] at h
    exact absurd h (by simp)
  · rw [if_neg hp]
    exact tryFn_of_extract_none b rest h

theorem lineDef_struct_line (rest : Str) (p : FPath) (n : Nat) :
    lineDef (strBytes "struct " ++ rest) p n
      = (extract_identifier rest).map (fun nm => ⟨.Struct, nm, p, n⟩) := by
  have hb : strBytes "struct " ++ rest
      = 115 :: 116 :: 114 :: 117 :: 99 :: 116 :: 32 :: rest := rfl
  have h1 : strBytes "//" = [47, 47] := rfl
  have h2 : strBytes "/*" = [47, 42] := rfl
  have h3 : strBytes "pub" = [112, 117, 98] := rfl
  have h4 : strBytes "struct " = [115, 116, 114, 117, 99, 116, 32] := rfl
  rw [lineDef, hb]
  simp only [extract_definition_fast, stripPub, tryStructKeyword, h1, h2, h3, h4,
    List.dropWhile, isSpTab, List.isPrefixOf, List.isEmpty]
  norm_num
  cases hei : extract_identifier rest with
  | some nm => simp [hei]
  | none => simp [hei, tryEnum_of_extract_none false rest hei]

theorem lineDef_enum_line (rest : Str) (p : FPath) (n : Nat) :
    lineDef (strBytes "enum " ++ rest) p n
      = (extract_identifier rest).map (fun nm => ⟨.Enum, nm, p, n⟩) := by
  have hb : strBytes "enum " ++ rest = 101 :: 110 :: 117 :: 109 :: 32 :: rest := rfl
  have h1 : strBytes "//" = [47, 47] := rfl
  have h2 : strBytes "/*" = [47, 42] := rfl
  have h3 : strBytes "pub" = [112, 117, 98] := rfl
  have h4 : strBytes "struct " = [115, 116, 114, 117, 99, 116, 32] := rfl
  have h5 : strBytes "enum " = [101, 110, 117, 109, 32] := rfl
  rw [lineDef, hb]
  simp only [extract_definition_fast, stripPub, tryStructKeyword, tryEnumKeyword,
    h1, h2, h3, h4, h5, List.dropWhile, isSpTab, List.isPrefixOf, List.isEmpty]
  norm_num
  cases hei : extract_identifier rest with
  | some nm => simp [hei]
  | none => simp [hei, tryFn_of_extract_none false rest hei]

theorem lineDef_pub_struct_line (rest : Str) (p : FPath) (n : Nat) :
    lineDef (strBytes "pub struct " ++ rest) p n
      = (extract_identifier rest).map (fun nm => ⟨.Struct, nm, p, n⟩) := by
  have hb : strBytes "pub struct " ++ rest
      = 112 :: 117 :: 98 :: 32 :: 115 :: 116 :: 114 :: 117 :: 99 :: 116 :: 32 :: rest := rfl
  have h1 : strBytes "//" = [47, 47] := rfl
  have h2 : strBytes "/*" = [47, 42] := rfl
  have h3 : strBytes "pub" = [112, 117, 98] := rfl
  have h4 : strBytes "struct " = [115, 116, 114, 117, 99, 116, 32] := rfl
  rw [lineDef, hb]
  simp only [extract_definition_fast, stripPub, tryStructKeyword, h1, h2, h3, h4,
    List.dropWhile, isSpTab, List.isPrefixOf, List.isEmpty]
  norm_num
  cases hei : extract_identifier rest with
  | some nm => simp [hei]
  | none => simp [hei, tryEnum_of_extract_none true rest hei]

theorem lineDef_pub_enum_line (rest : Str) (p : FPath) (n : Nat) :
    lineDef (strBytes "pub enum " ++ rest) p n
      = (extract_identifier rest).map (fun nm => ⟨.Enum, nm, p, n⟩) := by
  have hb : strBytes "pub enum " ++ rest
      = 112 :: 117 :: 98 :: 32 :: 101 :: 110 :: 117 :: 109 :: 32 :: rest := rfl
  have h1 : strBytes "//" = [47, 47] := rfl
  have h2 : strBytes "/*" = [47, 42] := rfl
  have h3 : strBytes "pub" = [112, 117, 98] := rfl
  have h4 : strBytes "struct " = [115, 116, 114, 117, 99, 116, 32] := rfl
  have h5 : strBytes "enum " = [101, 110, 117, 109, 32] := rfl
  rw [lineDef, hb]
  simp only [extract_definition_fast, stripPub, tryStructKeyword, tryEnumKeyword,
    h1, h2, h3, h4, h5, List.dropWhile, isSpTab, List.isPrefixOf, List.isEmpty]
  norm_num
  cases hei : extract_identifier rest with
  | some nm => simp [hei]
  | none => simp [hei, tryFn_of_extract_none true rest hei]

theorem lineDef_pub_fn_line (rest : Str) (p : FPath) (n : Nat) :
    lineDef (strBytes "pub fn " ++ rest) p n
      = (extract_identifier rest).map (fun nm => ⟨.PubFunction, nm, p, n⟩) := by
  have hb : strBytes "pub fn " ++ rest
      = 112 :: 117 :: 98 :: 32 :: 102 :: 110 :: 32 :: rest := rfl
  have h1 : strBytes "//" = [47, 47] := rfl
  have h2 : strBytes "/*" = [47, 42] := rfl
  have h3 : strBytes "pub" = [112, 117, 98] := rfl
  have h4 : strBytes "struct " = [115, 116, 114, 117, 99, 116, 32] := rfl
  have h5 : strBytes "enum " = [101, 110, 117, 109, 32] := rfl
  have h6 : strBytes "fn " = [102, 110, 32] := rfl
  rw [lineDef, hb]
  simp only [extract_definition_fast, stripPub, tryStructKeyword, tryEnumKeyword,
    tryFnKeyword, h1, h2, h3, h4, h5, h6, List.dropWhile, isSpTab, List.isPrefixOf,
    List.isEmpty]
  norm_num
  cases hei : extract_identifier rest with
  | some nm => simp [hei]
  | none => simp [hei]

theorem isSome_map_typedef (o : Option Str) (f : Str → TypeDefinition) :
    (o.map f).isSome = o.isSome := by cases o <;> rfl

theorem extract_isSome_iff_token_ok (rest : Str) :
    (extract_identifier rest).isSome = true ↔
      (let tok := (rest.dropWhile isSpTab).takeWhile (fun b => !isIdentTerminator b)
       tok ≠ [] ∧ isAlphaByte (tok.headD 48) = true
         ∧ tok.all (fun b => isAlnumByte b || b = 95) = true ∧ tok.length < 100) := by
  rw [extract_identifier_isSome_iff rest]
  constructor
  · rintro ⟨hne, hv⟩
    simp only [is_valid_identifier, Bool.and_eq_true, decide_eq_true_eq] at hv
    exact ⟨hne, hv.1.1.2, hv.1.2, hv.2⟩
  · rintro ⟨hne, ha, hall, hlen⟩
    refine ⟨hne, ?_⟩
    simp only [is_valid_identifier, Bool.and_eq_true, decide_eq_true_eq]
    refine ⟨⟨⟨?_, ha⟩, hall⟩, hlen⟩
    cases htok : (rest.dropWhile isSpTab).takeWhile (fun b => !isIdentTerminator b) with
    | nil => exact absurd htok hne
    | cons a t => simp [htok]

/-- **C2 (amended).** On every line where a definition keyword matches —
`struct `, `enum ` or `fn `, with or without a preceding `pub ` qualifier —
a symbol is emitted if and only if the token following the keyword (up to
the first terminator byte) is non-empty, starts with an ASCII letter (an
underscore-initial token such as `_helper` is rejected, so `fn _helper(`
yields no symbol), consists only of alphanumeric or underscore characters,
and is shorter than 100 bytes. -/
theorem keyword_line_symbol_iff_valid_identifier :
    (∀ (rest : Str) (p : FPath) (n : Nat),
      (lineDef (strBytes "struct " ++ rest) p n).isSome = true ↔
        (let tok := (rest.dropWhile isSpTab).takeWhile (fun b => !isIdentTerminator b)
         tok ≠ [] ∧ isAlphaByte (tok.headD 48) = true
           ∧ tok.all (fun b => isAlnumByte b || b = 95) = true ∧ tok.length < 100))
    ∧ (∀ (rest : Str) (p : FPath) (n : Nat),
      (lineDef (strBytes "enum " ++ rest) p n).isSome = true ↔
        (let tok := (rest.dropWhile isSpTab).takeWhile (fun b => !isIdentTerminator b)
         tok ≠ [] ∧ isAlphaByte (tok.headD 48) = true
           ∧ tok.all (fun b => isAlnumByte b || b = 95) = true ∧ tok.length < 100))
    ∧ (∀ (rest : Str) (p : FPath) (n : Nat),
      (lineDef (strBytes "fn " ++ rest) p n).isSome = true ↔
        (let tok := (rest.dropWhile isSpTab).takeWhile (fun b => !isIdentTerminator b)
         tok ≠ [] ∧ isAlphaByte (tok.headD 48) = true
           ∧ tok.all (fun b => isAlnumByte b || b = 95) = true ∧ tok.length < 100))
    ∧ (∀ (rest : Str) (p : FPath) (n : Nat),
      (lineDef (strBytes "pub struct " ++ rest) p n).isSome = true ↔
        (let tok := (rest.dropWhile isSpTab).takeWhile (fun b => !isIdentTerminator b)
         tok ≠ [] ∧ isAlphaByte (tok.headD 48) = true
           ∧ tok.all (fun b => isAlnumByte b || b = 95) = true ∧ tok.length < 100))
    ∧ (∀ (rest : Str) (p : FPath) (n : Nat),
      (lineDef (strBytes "pub enum " ++ rest) p n).isSome = true ↔
        (let tok := (rest.dropWhile isSpTab).takeWhile (fun b => !isIdentTerminator b)
         tok ≠ [] ∧ isAlphaByte (tok.headD 48) = true
           ∧ tok.all (fun b => isAlnumByte b || b = 95) = true ∧ tok.length < 100))
    ∧ (∀ (rest : Str) (p : FPath) (n : Nat),
      (lineDef (strBytes "pub fn " ++ rest) p n).isSome = true ↔
        (let tok := (rest.dropWhile isSpTab).takeWhile (fun b => !isIdentTerminator b)
         tok ≠ [] ∧ isAlphaByte (tok.headD 48) = true
           ∧ tok.all (fun b => isAlnumByte b || b = 95) = true ∧ tok.length < 100)) := by
  refine ⟨?_, ?_, ?_, ?_, ?_, ?_⟩ <;> intro rest p n
  · rw [lineDef_struct_line, isSome_map_typedef, extract_isSome_iff_token_ok]
  · rw [lineDef_enum_line, isSome_map_typedef, extract_isSome_iff_token_ok]
  · rw [lineDef_fn_line, isSome_map_typedef, extract_isSome_iff_token_ok]
  · rw [lineDef_pub_struct_line, isSome_map_typedef, extract_isSome_iff_token_ok]
  · rw [lineDef_pub_enum_line, isSome_map_typedef, extract_isSome_iff_token_ok]
  · rw [lineDef_pub_fn_line, isSome_map_typedef, extract_isSome_iff_token_ok]
